import Mathlib

/-!
Verification of the EIS (electrochemical impedance spectroscopy) ingestion and
feature-engineering pipeline of `src/utils.py`.

The development is a shallow embedding of the four components with real logic:

* `parse_eis_filename` — the Filename Decoder (`src/utils.py`, lines 22-50),
  modelled on `List Char` with an explicit Python-style `str.split`,
  `str.replace` (delete every occurrence) and `int()` parser, and `Path.stem`.
* `load_single_eis` — the Spectrum Loader (lines 53-81); a raw tabular source
  is a `List (List Cell)`, a cell either holds a number (finite, modelled as
  `ℚ`, or IEEE-infinite), holds text that coerces to a number or an infinity
  (`pd.to_numeric` parses numeric strings and `"inf"`-like strings), holds
  text that does not coerce, or is blank/NaN.  Coercion results are the
  non-NaN extended values `ExtQ`, since `dropna` removes only NaN and keeps
  infinities.
* `compute_impedance_features` — the Feature Extractor (lines 142-192).  The
  real-valued transcendental operations (`np.abs` of a complex number,
  `np.angle`, and the square root inside `np.std`) have irrational values and
  are abstracted as an arbitrary `RealOps` parameter; every theorem below is
  proved for all instantiations, since no verified claim depends on their
  numeric values.  `numpy` raising on an empty array is modelled by `Option`.
* `build_impedance_feature_table` — the Feature Table Builder (lines 195-220).
  `DataFrame.groupby(GROUP_COLS)` partitions rows by the 4-tuple key; group
  *order* (pandas sorts keys) is irrelevant to every claim and the embedding
  enumerates keys in first-occurrence order instead, each group keeping the
  input row order exactly as pandas does.

Recursive functions that theorems evaluate on concrete inputs are written with
structural (fuel-based where needed) recursion so that the kernel can reduce
them.
-/

/-! ## Decimal digits and the Python `int()` parser -/

/-- Character for the decimal digit `d` (`d < 10`): code point `48 + d`. -/
def digitChar (d : ℕ) : Char := Char.ofNat (48 + d)

/-- Fuelled decimal rendering of a natural number, least significant digit
last; `natToChars` supplies adequate fuel. -/
def natToCharsAux : ℕ → ℕ → List Char
  | 0, _ => []
  | fuel + 1, n =>
    if n < 10 then [digitChar n]
    else natToCharsAux fuel (n / 10) ++ [digitChar (n % 10)]

/-- Canonical decimal rendering of a natural number (no leading zeros, no
sign), as produced by Python's `str`/format of a nonnegative `int`. -/
def natToChars (n : ℕ) : List Char := natToCharsAux (n + 1) n

/-- Value of a list of decimal digit characters, most significant first. -/
def digitsToNat (s : List Char) : ℕ :=
  s.foldl (fun a c => 10 * a + (c.toNat - 48)) 0

/-- Model of Python `int(token)`: an optional single sign followed by a
nonempty run of decimal digits parses (leading zeros allowed, so
`int("02") = 2`); anything else raises `ValueError`, modelled as `none`.
(Python additionally tolerates surrounding whitespace and `_` digit
separators; no token arising in this pipeline or in any claim uses them.) -/
def parsePyInt (s : List Char) : Option ℤ :=
  match s with
  | [] => none
  | c :: rest =>
    if c = '-' then
      if rest ≠ [] ∧ rest.all Char.isDigit then some (-(digitsToNat rest : ℤ)) else none
    else if c = '+' then
      if rest ≠ [] ∧ rest.all Char.isDigit then some ((digitsToNat rest : ℤ)) else none
    else if (c :: rest).all Char.isDigit then some ((digitsToNat (c :: rest) : ℤ))
    else none

/-! ## Python `str.replace(tag, "")` -/

/-- Whether `p` is an initial segment of `s`. -/
def startsWith : List Char → List Char → Bool
  | [], _ => true
  | _ :: _, [] => false
  | p :: ps, c :: cs => if p = c then startsWith ps cs else false

/-- Fuelled worker for `removeAll`; the fuel bounds the length of the list
being scanned. -/
def removeAllAux (pc : Char) (pr : List Char) : ℕ → List Char → List Char
  | 0, l => l
  | _ + 1, [] => []
  | fuel + 1, c :: cs =>
    if startsWith (pc :: pr) (c :: cs) then removeAllAux pc pr fuel (cs.drop pr.length)
    else c :: removeAllAux pc pr fuel cs

/-- Model of Python `s.replace(pat, "")` for the nonempty pattern
`pc :: pr`: delete every (leftmost, non-overlapping) occurrence of the
pattern.  Note this is not anchored: the tag is deleted wherever it occurs,
and a token without the tag is passed through unchanged. -/
def removeAll (pc : Char) (pr : List Char) (l : List Char) : List Char :=
  removeAllAux pc pr l.length l

/-- Deletion of the literal tag `"Cell"`, as in `cell_str.replace("Cell", "")`. -/
def stripTagCell (tok : List Char) : List Char := removeAll 'C' ['e', 'l', 'l'] tok

/-- Deletion of the literal tag `"SOH"`. -/
def stripTagSOH (tok : List Char) : List Char := removeAll 'S' ['O', 'H'] tok

/-- Deletion of the literal tag `"degC"`. -/
def stripTagDegC (tok : List Char) : List Char := removeAll 'd' ['e', 'g', 'C'] tok

/-- Deletion of the literal tag `"SOC"`. -/
def stripTagSOC (tok : List Char) : List Char := removeAll 'S' ['O', 'C'] tok

/-! ## Python `str.split("_")` and `pathlib.Path.stem` -/

/-- Worker for `splitUnderscore`: returns the first field and the remaining
fields of the split. -/
def splitU : List Char → List Char × List (List Char)
  | [] => ([], [])
  | c :: cs =>
    let r := splitU cs
    if c = '_' then ([], r.1 :: r.2) else (c :: r.1, r.2)

/-- Model of Python `s.split("_")` with an explicit separator: always at least
one field, empty fields preserved (`"".split("_") == [""]`). -/
def splitUnderscore (s : List Char) : List (List Char) := (splitU s).1 :: (splitU s).2

/-- Splits a name around its last `'.'`, returning the parts before and after
it, or `none` if no dot occurs. -/
def splitLastDot : List Char → Option (List Char × List Char)
  | [] => none
  | c :: cs =>
    match splitLastDot cs with
    | some (b, a) => some (c :: b, a)
    | none => if c = '.' then some ([], cs) else none

/-- Model of `pathlib.Path(name).stem`: drop the part of the name from the
last dot on, provided that dot is neither the first character nor the last
(`Path(".bashrc").stem == ".bashrc"`, `Path("a.").stem == "a."`). -/
def stemOf (name : List Char) : List Char :=
  match splitLastDot name with
  | some (b, a) => if b ≠ [] ∧ a ≠ [] then b else name
  | none => name

/-! ## The Filename Decoder -/

/-- Decoded identity of one EIS test, the dict returned by
`parse_eis_filename` (the `filepath` entry, a mere echo of the input path, is
omitted).  All five fields are Python `int`s. -/
structure TestIdentity where
  cell_id : ℤ
  soh_pct : ℤ
  temp_c : ℤ
  soc_pct : ℤ
  capacity_code : ℤ
deriving DecidableEq, Repr

/-- Underscore-separated tokens of the stem of a filename, as computed by
`path.stem.split("_")` in `parse_eis_filename`. -/
def tokensOf (name : List Char) : List (List Char) := splitUnderscore (stemOf name)

/-- The Filename Decoder `parse_eis_filename` (`src/utils.py`, lines 22-50):
split the stem on `"_"`; unless there are exactly five tokens, raise
(`none`); delete the literal tags `"Cell"`, `"SOH"`, `"degC"`, `"SOC"` from
the first four tokens and parse all five as `int`, raising (`none`) if any
parse fails. -/
def parse_eis_filename (name : List Char) : Option TestIdentity :=
  match tokensOf name with
  | [cellS, sohS, tempS, socS, capS] =>
    match parsePyInt (stripTagCell cellS), parsePyInt (stripTagSOH sohS),
        parsePyInt (stripTagDegC tempS), parsePyInt (stripTagSOC socS),
        parsePyInt capS with
    | some a, some b, some c, some d, some e => some ⟨a, b, c, d, e⟩
    | _, _, _, _, _ => none
  | _ => none

/-- Modelled from the spec: the repository has no encoder, so the literal
identifier template of §6, `Cell<int>_<int>SOH_<int>degC_<int>SOC_<int>.<ext>`,
is rendered here with each nonnegative integer field in canonical decimal
form. -/
def encodeFields (n1 n2 n3 n4 n5 : ℕ) (ext : List Char) : List Char :=
  ['C', 'e', 'l', 'l'] ++ natToChars n1 ++
    '_' :: (natToChars n2 ++ ['S', 'O', 'H'] ++
      '_' :: (natToChars n3 ++ ['d', 'e', 'g', 'C'] ++
        '_' :: (natToChars n4 ++ ['S', 'O', 'C'] ++
          '_' :: natToChars n5))) ++ '.' :: ext

/-- Modelled from the spec: a name matches the literal format of §6 when it is
`Cell<digits>_<digits>SOH_<digits>degC_<digits>SOC_<digits>.<ext>` for some
nonempty digit runs (leading zeros allowed, per the spec's own example
`Cell02_95SOH_15degC_05SOC_9505.xls`) and a nonempty dot-free extension. -/
def matchesEisFormat (s : List Char) : Prop :=
  ∃ d1 d2 d3 d4 d5 ext : List Char,
    (d1 ≠ [] ∧ ∀ c ∈ d1, c.isDigit) ∧ (d2 ≠ [] ∧ ∀ c ∈ d2, c.isDigit) ∧
    (d3 ≠ [] ∧ ∀ c ∈ d3, c.isDigit) ∧ (d4 ≠ [] ∧ ∀ c ∈ d4, c.isDigit) ∧
    (d5 ≠ [] ∧ ∀ c ∈ d5, c.isDigit) ∧ ext ≠ [] ∧ '.' ∉ ext ∧
    s = ['C', 'e', 'l', 'l'] ++ d1 ++
      '_' :: (d2 ++ ['S', 'O', 'H'] ++
        '_' :: (d3 ++ ['d', 'e', 'g', 'C'] ++
          '_' :: (d4 ++ ['S', 'O', 'C'] ++ '_' :: d5))) ++ '.' :: ext

/-! ## The Spectrum Loader -/

/-- A non-NaN value that per-cell numeric coercion can produce: a finite
number (finite machine floats are modelled as `ℚ`) or one of the two IEEE
infinities.  `pd.to_numeric` yields an infinity for an IEEE-infinite numeric
cell and for text such as `"inf"`/`"Infinity"`/`"-inf"`, and `dropna` removes
only NaN, so infinite values survive the loader's cleaning. -/
inductive ExtQ where
  | fin (q : ℚ)
  | posInf
  | negInf
deriving DecidableEq

/-- Whether an extended value is finite. -/
def ExtQ.isFin : ExtQ → Bool
  | .fin _ => true
  | .posInf => false
  | .negInf => false

/-- One cell of a raw tabular source as seen after `pd.read_excel`: a finite
numeric cell, an IEEE-infinite numeric cell (sign in `pos`), a text cell
whose content `pd.to_numeric` parses as the finite number `q`, a text cell it
parses as an infinity (`"inf"`, `"Infinity"`, `"-inf"`, …), a text cell that
does not parse, or a blank/NaN cell. -/
inductive Cell where
  | num (q : ℚ)
  | infCell (pos : Bool)
  | numStr (q : ℚ)
  | infStr (pos : Bool)
  | str (s : String)
  | blank
deriving DecidableEq

/-- Per-cell numeric coercion, `pd.to_numeric(cell, errors="coerce")`:
numeric cells and numeric text coerce — infinite cells and infinity-denoting
text coerce to `±inf` — and anything else becomes NaN (`none`), which
`dropna` later removes.  The coercion is partial into the non-NaN extended
values `ExtQ`, not into the finite numbers. -/
def toNumeric : Cell → Option ExtQ
  | .num q => some (.fin q)
  | .infCell pos => some (if pos then .posInf else .negInf)
  | .numStr q => some (.fin q)
  | .infStr pos => some (if pos then .posInf else .negInf)
  | .str _ => none
  | .blank => none

/-- Cell of a row at positional column `i`; a short row reads as blank/NaN
there, as `pd.read_excel` pads ragged rows. -/
def cellAt (row : List Cell) (i : ℕ) : Cell := row.getD i Cell.blank

/-- Whether all three of the first three cells of a row coerce to numbers, so
that `dropna` keeps the row. -/
def rowOk (row : List Cell) : Bool :=
  (toNumeric (cellAt row 0)).isSome && (toNumeric (cellAt row 1)).isSome &&
    (toNumeric (cellAt row 2)).isSome

/-- One cleaned spectrum row: `frequency_hz, z_real_ohm, z_imag_ohm`.  The
fields are non-NaN extended values: coercion of an infinite cell or of
infinity-denoting text is retained by `dropna`, so a cleaned row can carry
`±inf`. -/
structure SpectrumPoint where
  frequency_hz : ExtQ
  z_real_ohm : ExtQ
  z_imag_ohm : ExtQ
deriving DecidableEq

/-- The point a fully coercible row yields (defaults are never used on rows
that `rowOk` accepts). -/
def rowPoint (row : List Cell) : SpectrumPoint :=
  ⟨(toNumeric (cellAt row 0)).getD (.fin 0), (toNumeric (cellAt row 1)).getD (.fin 0),
    (toNumeric (cellAt row 2)).getD (.fin 0)⟩

/-- The Spectrum Loader `load_single_eis` (`src/utils.py`, lines 53-81) after
the `pd.read_excel` I/O boundary: take the first three columns positionally,
coerce each cell to numeric, and drop every row in which any of the three
coercions failed.  The function is total on a readable table: pandas raises
nowhere in this cleaning, so there is no error outcome to model. -/
def load_single_eis (raw : List (List Cell)) : List SpectrumPoint :=
  raw.filterMap fun row =>
    match toNumeric (cellAt row 0), toNumeric (cellAt row 1), toNumeric (cellAt row 2) with
    | some f, some zr, some zi => some ⟨f, zr, zi⟩
    | _, _, _ => none

/-! ## Long-format rows and grouping -/

/-- One row of the long-format dataset: the five identity fields broadcast by
`load_all_eis` plus one spectrum sample. -/
structure LongRow where
  cell_id : ℤ
  soh_pct : ℤ
  temp_c : ℤ
  soc_pct : ℤ
  capacity_code : ℤ
  frequency_hz : ℚ
  z_real_ohm : ℚ
  z_imag_ohm : ℚ
deriving DecidableEq

/-- The grouping columns, `GROUP_COLS` of `src/utils.py` line 139; note
`capacity_code` is absent. -/
def GROUP_COLS : List String := ["cell_id", "soh_pct", "temp_c", "soc_pct"]

/-- Composite grouping key of a long-format row: the values of the four
`GROUP_COLS` fields, excluding `capacity_code`. -/
def groupKey (r : LongRow) : ℤ × ℤ × ℤ × ℤ :=
  (r.cell_id, r.soh_pct, r.temp_c, r.soc_pct)

/-! ## The Feature Extractor -/

/-- The real-valued operations of the extractor whose exact values are
irrational: `mag re im` models `np.abs(re + 1j*im)`, `phase re im` models
`np.angle(re + 1j*im)` (i.e. `atan2(im, re)`), and `sqrt` models the square
root taken inside `np.std`.  Every theorem below holds for every
instantiation. -/
structure RealOps where
  mag : ℚ → ℚ → ℚ
  phase : ℚ → ℚ → ℚ
  sqrt : ℚ → ℚ

/-- A trivial instantiation of `RealOps`, used to state concrete examples. -/
def opsZero : RealOps := ⟨fun _ _ => 0, fun _ _ => 0, fun _ => 0⟩

/-- Insertion of a row into a frequency-ascending list. -/
def insertByFreq (r : LongRow) : List LongRow → List LongRow
  | [] => [r]
  | x :: xs =>
    if r.frequency_hz ≤ x.frequency_hz then r :: x :: xs else x :: insertByFreq r xs

/-- Ascending sort by `frequency_hz`, modelling
`group.sort_values("frequency_hz")`.  (pandas' default quicksort leaves the
relative order of equal frequencies unspecified; the spec calls that order
arbitrary and no claim depends on it, so any frequency-ascending permutation
is a faithful model.) -/
def sortByFreq : List LongRow → List LongRow
  | [] => []
  | x :: xs => insertByFreq x (sortByFreq xs)

/-- Index of the first occurrence of the minimum of a list, the documented
semantics of `np.argmin` (`0` on the empty list, where numpy raises instead;
the extractor never reaches that case). -/
def idxOfMin : List ℚ → ℕ
  | [] => 0
  | [_] => 0
  | x :: y :: ys =>
    let m := idxOfMin (y :: ys)
    if (y :: ys).getD m 0 < x then m + 1 else 0

/-- Index of the first occurrence of the maximum of a list, the documented
semantics of `np.argmax`. -/
def idxOfMax : List ℚ → ℕ
  | [] => 0
  | [_] => 0
  | x :: y :: ys =>
    let m := idxOfMax (y :: ys)
    if x < (y :: ys).getD m 0 then m + 1 else 0

/-- Index selected by the nearest-frequency sampling step:
`np.argmin(np.abs(freq - f_target))` (`src/utils.py` line 186). -/
def nearestIdx (freq : List ℚ) (t : ℚ) : ℕ :=
  idxOfMin (freq.map fun f => |f - t|)

/-- Arithmetic mean, `np.mean` (the empty case never arises in the extractor). -/
def meanQ (l : List ℚ) : ℚ := l.sum / l.length

/-- Population variance; `np.std` is `RealOps.sqrt` of this. -/
def popVar (l : List ℚ) : ℚ := meanQ (l.map fun x => (x - meanQ l) ^ 2)

/-- Minimum of a list, `np.min` (default never used by the extractor). -/
def listMinQ : List ℚ → ℚ
  | [] => 0
  | x :: xs => xs.foldl min x

/-- Maximum of a list, `np.max` (default never used by the extractor). -/
def listMaxQ : List ℚ → ℚ
  | [] => 0
  | x :: xs => xs.foldl max x

/-- Frequencies of the rows of a spectrum, in row order. -/
def freqList (g : List LongRow) : List ℚ := g.map (·.frequency_hz)

/-- Real impedance parts of the rows of a spectrum, in row order. -/
def zrealList (g : List LongRow) : List ℚ := g.map (·.z_real_ohm)

/-- Magnitudes `|z_real + i z_imag|` of the rows of a spectrum. -/
def magList (ops : RealOps) (g : List LongRow) : List ℚ :=
  g.map fun r => ops.mag r.z_real_ohm r.z_imag_ohm

/-- Phases `atan2(z_imag, z_real)` of the rows of a spectrum. -/
def phaseList (ops : RealOps) (g : List LongRow) : List ℚ :=
  g.map fun r => ops.phase r.z_real_ohm r.z_imag_ohm

/-- The seven target frequencies of `f_targets` (`src/utils.py` line 182),
each paired with its Python `str()` form: `str(0.01) == "0.01"`,
`str(1.0) == "1.0"`, and so on (the shortest round-tripping decimal). -/
def fTargetsWithReprs : List (ℚ × String) :=
  [(1/100, "0.01"), (1/10, "0.1"), (1, "1.0"), (10, "10.0"),
    (100, "100.0"), (1000, "1000.0"), (10000, "10000.0")]

/-- Python `s.replace(".", "p")` on a frequency's string form
(`src/utils.py` line 188). -/
def dotToP (s : String) : String :=
  ⟨s.data.map fun c => if c = '.' then 'p' else c⟩

/-- The nine summary features of the extractor, in insertion order
(`src/utils.py` lines 169-179). -/
def summaryEntries (ops : RealOps) (g : List LongRow) : List (String × ℚ) :=
  [("R_hf_ohm", (zrealList g).getD (idxOfMax (freqList g)) 0),
   ("R_lf_ohm", (zrealList g).getD (idxOfMin (freqList g)) 0),
   ("delta_R_ohm",
     (zrealList g).getD (idxOfMin (freqList g)) 0 -
       (zrealList g).getD (idxOfMax (freqList g)) 0),
   ("Zmag_mean", meanQ (magList ops g)),
   ("Zmag_std", ops.sqrt (popVar (magList ops g))),
   ("Zmag_min", listMinQ (magList ops g)),
   ("Zmag_max", listMaxQ (magList ops g)),
   ("phase_mean", meanQ (phaseList ops g)),
   ("phase_std", ops.sqrt (popVar (phaseList ops g)))]

/-- The fourteen frequency-indexed features, two per target frequency, in
insertion order (`src/utils.py` lines 184-190). -/
def targetEntries (ops : RealOps) (g : List LongRow) : List (String × ℚ) :=
  (fTargetsWithReprs.map fun p =>
    [("Zmag_f" ++ dotToP p.2, (magList ops g).getD (nearestIdx (freqList g) p.1) 0),
     ("phase_f" ++ dotToP p.2, (phaseList ops g).getD (nearestIdx (freqList g) p.1) 0)]).flatten

/-- The feature dict built by `compute_impedance_features` for a (sorted,
nonempty) spectrum, as a key-value list in Python dict insertion order. -/
def featuresOf (ops : RealOps) (g : List LongRow) : List (String × ℚ) :=
  summaryEntries ops g ++ targetEntries ops g

/-- The 23 feature keys in insertion order. -/
def featureKeys : List String :=
  ["R_hf_ohm", "R_lf_ohm", "delta_R_ohm", "Zmag_mean", "Zmag_std",
   "Zmag_min", "Zmag_max", "phase_mean", "phase_std",
   "Zmag_f0p01", "phase_f0p01", "Zmag_f0p1", "phase_f0p1",
   "Zmag_f1p0", "phase_f1p0", "Zmag_f10p0", "phase_f10p0",
   "Zmag_f100p0", "phase_f100p0", "Zmag_f1000p0", "phase_f1000p0",
   "Zmag_f10000p0", "phase_f10000p0"]

/-- The Feature Extractor `compute_impedance_features` (`src/utils.py`,
lines 142-192): sort the group by frequency and build the feature dict.  On
an empty group numpy's `argmax`/`min`/`max` raise, modelled as `none`. -/
def compute_impedance_features (ops : RealOps) (group : List LongRow) :
    Option (List (String × ℚ)) :=
  match sortByFreq group with
  | [] => none
  | p :: ps => some (featuresOf ops (p :: ps))

/-! ## The Feature Table Builder -/

/-- One row of the output feature table: the four grouping-key values followed
by the feature mapping. -/
abbrev FeatureRecord : Type := (ℤ × ℤ × ℤ × ℤ) × List (String × ℚ)

/-- Collects a list of optional results, failing if any member fails, as the
builder's loop propagates an extractor failure. -/
def seqOptions {α : Type} : List (Option α) → Option (List α)
  | [] => some []
  | o :: os => o.bind fun a => (seqOptions os).map fun as => a :: as

/-- The rows of the group keyed by `k`: the partition cell that
`groupby(GROUP_COLS)` hands to the extractor, in input row order. -/
def groupRows (rows : List LongRow) (k : ℤ × ℤ × ℤ × ℤ) : List LongRow :=
  rows.filter fun r => decide (groupKey r = k)

/-- The Feature Table Builder `build_impedance_feature_table`
(`src/utils.py`, lines 195-220): partition the long-format rows by
`groupKey` (the `GROUP_COLS` fields, excluding `capacity_code`), run the
extractor on each group — every group keeps its rows in input order — and
emit one record of key fields plus features per distinct key. -/
def build_impedance_feature_table (ops : RealOps) (rows : List LongRow) :
    Option (List FeatureRecord) :=
  seqOptions (((rows.map groupKey).dedup).map fun k =>
    (compute_impedance_features ops (groupRows rows k)).map fun fs => (k, fs))

/-- The record the builder emits for the key `k`. -/
def recordFor (ops : RealOps) (rows : List LongRow) (k : ℤ × ℤ × ℤ × ℤ) : FeatureRecord :=
  (k, featuresOf ops (sortByFreq (groupRows rows k)))

/-- Two long-format rows agreeing on the four grouping fields
`(1, 100, 25, 50)` while differing in `capacity_code` (1000 vs 1001) and in
their spectra — the end-to-end merge scenario of spec §8. -/
def exampleTwoCapRows : List LongRow :=
  [⟨1, 100, 25, 50, 1000, 1/100, 3/2, -1/2⟩,
   ⟨1, 100, 25, 50, 1001, 1/10, 2, -1⟩]

/-! ## Helper lemmas: decimal digits -/

lemma toNat_digitChar (d : ℕ) (h : d < 10) : (digitChar d).toNat = 48 + d := by
  interval_cases d <;> rfl

lemma isDigit_digitChar (d : ℕ) (h : d < 10) : (digitChar d).isDigit = true := by
  interval_cases d <;> rfl

lemma isDigit_mem_natToCharsAux :
    ∀ (fuel n : ℕ) (c : Char), c ∈ natToCharsAux fuel n → c.isDigit = true
  | 0, n, c, h => by simp [natToCharsAux] at h
  | fuel + 1, n, c, h => by
    by_cases hn : n < 10
    · simp only [natToCharsAux, if_pos hn, List.mem_singleton] at h
      exact h ▸ isDigit_digitChar n hn
    · simp only [natToCharsAux, if_neg hn, List.mem_append, List.mem_singleton] at h
      rcases h with h | h
      · exact isDigit_mem_natToCharsAux fuel (n / 10) c h
      · exact h ▸ isDigit_digitChar (n % 10) (Nat.mod_lt _ (by norm_num))

lemma isDigit_mem_natToChars {n : ℕ} {c : Char} (h : c ∈ natToChars n) :
    c.isDigit = true :=
  isDigit_mem_natToCharsAux (n + 1) n c h

lemma not_mem_natToChars (x : Char) (hx : x.isDigit = false) (n : ℕ) :
    x ∉ natToChars n := fun h => by
  rw [isDigit_mem_natToChars h] at hx
  cases hx

lemma natToChars_ne_nil (n : ℕ) : natToChars n ≠ [] := by
  by_cases h : n < 10 <;> simp [natToChars, natToCharsAux, h]

lemma digitsToNat_append_digit (xs : List Char) (c : Char) :
    digitsToNat (xs ++ [c]) = 10 * digitsToNat xs + (c.toNat - 48) := by
  simp [digitsToNat, List.foldl_append]

lemma digitsToNat_natToCharsAux :
    ∀ (fuel n : ℕ), n < fuel → digitsToNat (natToCharsAux fuel n) = n
  | 0, n, h => absurd h (by omega)
  | fuel + 1, n, h => by
    by_cases hn : n < 10
    · simp only [natToCharsAux, if_pos hn, digitsToNat, List.foldl_cons, List.foldl_nil]
      rw [toNat_digitChar n hn]
      omega
    · have hlt : n / 10 < fuel :=
        lt_of_lt_of_le (Nat.div_lt_self (by omega) (by norm_num)) (by omega)
      simp only [natToCharsAux, if_neg hn, digitsToNat_append_digit,
        digitsToNat_natToCharsAux fuel (n / 10) hlt,
        toNat_digitChar (n % 10) (Nat.mod_lt _ (by norm_num))]
      omega

lemma digitsToNat_natToChars (n : ℕ) : digitsToNat (natToChars n) = n :=
  digitsToNat_natToCharsAux (n + 1) n (by omega)

lemma ne_of_isDigit {c x : Char} (h : c.isDigit = true) (hx : x.isDigit = false) :
    c ≠ x := fun e => by rw [e, hx] at h; cases h

lemma parsePyInt_digits (s : List Char) (hne : s ≠ [])
    (hd : ∀ c ∈ s, c.isDigit = true) :
    parsePyInt s = some ((digitsToNat s : ℕ) : ℤ) := by
  match s with
  | [] => exact absurd rfl hne
  | c :: cs =>
    have hc := hd c (List.mem_cons_self c cs)
    rw [parsePyInt, if_neg (ne_of_isDigit hc (by decide)),
      if_neg (ne_of_isDigit hc (by decide)),
      if_pos (List.all_eq_true.mpr hd)]

lemma parsePyInt_natToChars (n : ℕ) : parsePyInt (natToChars n) = some (n : ℤ) := by
  rw [parsePyInt_digits _ (natToChars_ne_nil n) fun c h => isDigit_mem_natToChars h,
    digitsToNat_natToChars]

/-! ## Helper lemmas: `removeAll` -/

lemma startsWith_append_self : ∀ (p r : List Char), startsWith p (p ++ r) = true
  | [], _ => rfl
  | c :: cs, r => by simp [startsWith, startsWith_append_self cs r]

lemma startsWith_cons_of_ne (pc : Char) (pr : List Char) (c : Char) (cs : List Char)
    (h : pc ≠ c) : startsWith (pc :: pr) (c :: cs) = false := by
  simp [startsWith, h]

lemma removeAllAux_congr (pc : Char) (pr : List Char) :
    ∀ (f1 : ℕ) (l : List Char), l.length ≤ f1 → ∀ (f2 : ℕ), l.length ≤ f2 →
      removeAllAux pc pr f1 l = removeAllAux pc pr f2 l
  | 0, l, h1, f2, h2 => by
    have hl : l = [] := List.length_eq_zero.mp (by omega)
    subst hl
    cases f2 <;> rfl
  | _ + 1, [], _, f2, _ => by cases f2 <;> rfl
  | f1 + 1, c :: cs, h1, f2, h2 => by
    match f2, h2 with
    | f2 + 1, h2 => ?_
    simp only [removeAllAux]
    by_cases hs : startsWith (pc :: pr) (c :: cs) = true
    · rw [if_pos hs, if_pos hs]
      have hd : (cs.drop pr.length).length ≤ cs.length := by
        simp [List.length_drop]
      exact removeAllAux_congr pc pr f1 _ (by simp at h1; omega) f2 (by simp at h2; omega)
    · rw [if_neg hs, if_neg hs]
      exact congrArg (c :: ·)
        (removeAllAux_congr pc pr f1 cs (by simp at h1; omega) f2 (by simp at h2; omega))

lemma removeAll_cons (pc : Char) (pr : List Char) (c : Char) (cs : List Char) :
    removeAll pc pr (c :: cs) =
      if startsWith (pc :: pr) (c :: cs) then removeAll pc pr (cs.drop pr.length)
      else c :: removeAll pc pr cs := by
  simp only [removeAll, List.length_cons, removeAllAux]
  by_cases hs : startsWith (pc :: pr) (c :: cs) = true
  · rw [if_pos hs, if_pos hs]
    exact removeAllAux_congr pc pr cs.length _ (by simp [List.length_drop]) _ le_rfl
  · rw [if_neg hs, if_neg hs]

lemma removeAll_of_not_mem (pc : Char) (pr : List Char) :
    ∀ (l : List Char), pc ∉ l → removeAll pc pr l = l
  | [], _ => rfl
  | c :: cs, h => by
    have hc : pc ≠ c := fun e => h (e ▸ List.mem_cons_self c cs)
    rw [removeAll_cons, if_neg (by simp [startsWith_cons_of_ne pc pr c cs hc])]
    exact congrArg (c :: ·)
      (removeAll_of_not_mem pc pr cs fun m => h (List.mem_cons_of_mem c m))

lemma removeAll_tag (pc : Char) (pr : List Char) :
    ∀ (xs ys : List Char), pc ∉ xs →
      removeAll pc pr (xs ++ pc :: (pr ++ ys)) = xs ++ removeAll pc pr ys
  | [], ys, _ => by
    have hs : startsWith (pc :: pr) (pc :: (pr ++ ys)) = true :=
      startsWith_append_self (pc :: pr) ys
    rw [List.nil_append, removeAll_cons, if_pos hs, List.drop_left, List.nil_append]
  | x :: xs, ys, h => by
    have hx : pc ≠ x := fun e => h (e ▸ List.mem_cons_self x xs)
    rw [List.cons_append, removeAll_cons,
      if_neg (by simp [startsWith_cons_of_ne pc pr x _ hx]), List.cons_append]
    exact congrArg (x :: ·)
      (removeAll_tag pc pr xs ys fun m => h (List.mem_cons_of_mem x m))

/-! ## Helper lemmas: splitting and stems -/

lemma splitU_no_sep : ∀ (t : List Char), '_' ∉ t → splitU t = (t, [])
  | [], _ => rfl
  | c :: cs, h => by
    have hc : ¬ c = '_' := fun e => h (e ▸ List.mem_cons_self c cs)
    simp [splitU, hc, splitU_no_sep cs fun m => h (List.mem_cons_of_mem c m)]

lemma splitU_sep_append :
    ∀ (t rest : List Char), '_' ∉ t →
      splitU (t ++ '_' :: rest) = (t, (splitU rest).1 :: (splitU rest).2)
  | [], rest, _ => by simp [splitU]
  | c :: cs, rest, h => by
    have hc : ¬ c = '_' := fun e => h (e ▸ List.mem_cons_self c cs)
    simp [splitU, hc, splitU_sep_append cs rest fun m => h (List.mem_cons_of_mem c m)]

lemma splitUnderscore_five (t1 t2 t3 t4 t5 : List Char)
    (h1 : '_' ∉ t1) (h2 : '_' ∉ t2) (h3 : '_' ∉ t3) (h4 : '_' ∉ t4) (h5 : '_' ∉ t5) :
    splitUnderscore (t1 ++ '_' :: (t2 ++ '_' :: (t3 ++ '_' :: (t4 ++ '_' :: t5)))) =
      [t1, t2, t3, t4, t5] := by
  simp [splitUnderscore, splitU_sep_append _ _ h1, splitU_sep_append _ _ h2,
    splitU_sep_append _ _ h3, splitU_sep_append _ _ h4, splitU_no_sep _ h5]

lemma splitLastDot_of_not_mem : ∀ (s : List Char), '.' ∉ s → splitLastDot s = none
  | [], _ => rfl
  | c :: cs, h => by
    have hc : ¬ c = '.' := fun e => h (e ▸ List.mem_cons_self c cs)
    simp [splitLastDot, splitLastDot_of_not_mem cs fun m => h (List.mem_cons_of_mem c m), hc]

lemma splitLastDot_append (b a : List Char) (ha : '.' ∉ a) :
    splitLastDot (b ++ '.' :: a) = some (b, a) := by
  induction b with
  | nil => simp [splitLastDot, splitLastDot_of_not_mem a ha]
  | cons c bs ih => simp [splitLastDot, ih]

lemma stemOf_append (b a : List Char) (hb : b ≠ []) (ha : a ≠ []) (hd : '.' ∉ a) :
    stemOf (b ++ '.' :: a) = b := by
  simp [stemOf, splitLastDot_append b a hd, hb, ha]

/-! ## Helper lemmas: the Spectrum Loader -/

lemma load_eq_filter_map (raw : List (List Cell)) :
    load_single_eis raw = (raw.filter rowOk).map rowPoint := by
  induction raw with
  | nil => rfl
  | cons row rest ih =>
    simp only [load_single_eis] at ih ⊢
    rw [List.filterMap_cons, List.filter_cons]
    rcases h0 : toNumeric (cellAt row 0) with _ | f <;>
      rcases h1 : toNumeric (cellAt row 1) with _ | zr <;>
      rcases h2 : toNumeric (cellAt row 2) with _ | zi <;>
      simp [rowOk, rowPoint, h0, h1, h2, ih]

/-! ## Helper lemmas: argmin / argmax indices -/

lemma idxOfMin_lt_length : ∀ (l : List ℚ), l ≠ [] → idxOfMin l < l.length
  | [], h => absurd rfl h
  | [_], _ => by simp [idxOfMin]
  | x :: y :: ys, _ => by
    simp only [idxOfMin]
    split
    · have := idxOfMin_lt_length (y :: ys) (by simp)
      simp only [List.length_cons] at this ⊢
      omega
    · simp

lemma idxOfMin_getD_le :
    ∀ (l : List ℚ), ∀ j < l.length, l.getD (idxOfMin l) 0 ≤ l.getD j 0
  | [], j, hj => by simp at hj
  | [x], j, hj => by
    have : j = 0 := by simpa using Nat.lt_one_iff.mp (by simpa using hj)
    subst this
    simp [idxOfMin]
  | x :: y :: ys, j, hj => by
    simp only [idxOfMin]
    split
    · rename_i hlt
      match j, hj with
      | 0, _ =>
        simpa using le_of_lt hlt
      | j + 1, hj =>
        simpa using idxOfMin_getD_le (y :: ys) j (by simpa using hj)
    · rename_i hge
      match j, hj with
      | 0, _ => simp
      | j + 1, hj =>
        have h1 : x ≤ (y :: ys).getD (idxOfMin (y :: ys)) 0 := not_lt.mp hge
        have h2 := idxOfMin_getD_le (y :: ys) j (by simpa using hj)
        simpa using le_trans h1 h2

lemma idxOfMin_getD_lt :
    ∀ (l : List ℚ), ∀ j < idxOfMin l, l.getD (idxOfMin l) 0 < l.getD j 0
  | [], j, hj => by simp [idxOfMin] at hj
  | [_], j, hj => by simp [idxOfMin] at hj
  | x :: y :: ys, j, hj => by
    simp only [idxOfMin] at hj ⊢
    split
    · rename_i hlt
      match j, hj with
      | 0, _ => simpa using hlt
      | j + 1, hj =>
        rw [if_pos hlt] at hj
        simpa using idxOfMin_getD_lt (y :: ys) j (by omega)
    · rename_i hge
      rw [if_neg hge] at hj
      omega

/-! ## Helper lemmas: the Feature Extractor -/

lemma length_insertByFreq (r : LongRow) :
    ∀ (l : List LongRow), (insertByFreq r l).length = l.length + 1
  | [] => rfl
  | x :: xs => by
    simp only [insertByFreq]
    split
    · simp
    · simp [length_insertByFreq r xs]

lemma length_sortByFreq : ∀ (l : List LongRow), (sortByFreq l).length = l.length
  | [] => rfl
  | x :: xs => by simp [sortByFreq, length_insertByFreq, length_sortByFreq xs]

lemma sortByFreq_ne_nil {g : List LongRow} (h : g ≠ []) : sortByFreq g ≠ [] := by
  intro e
  apply h
  have := length_sortByFreq g
  rw [e] at this
  exact List.length_eq_zero.mp this.symm

lemma featuresOf_map_fst (ops : RealOps) (g : List LongRow) :
    (featuresOf ops g).map Prod.fst = featureKeys := rfl

lemma featuresOf_length (ops : RealOps) (g : List LongRow) :
    (featuresOf ops g).length = 23 := rfl

lemma compute_eq_some (ops : RealOps) (group : List LongRow) (h : group ≠ []) :
    compute_impedance_features ops group =
      some (featuresOf ops (sortByFreq group)) := by
  obtain ⟨p, ps, hps⟩ := List.exists_cons_of_ne_nil (sortByFreq_ne_nil h)
  simp only [compute_impedance_features]
  rw [hps]

/-! ## Helper lemmas: the Feature Table Builder -/

lemma seqOptions_map_some {α β : Type} (l : List α) (f : α → Option β) (g : α → β)
    (h : ∀ k ∈ l, f k = some (g k)) : seqOptions (l.map f) = some (l.map g) := by
  induction l with
  | nil => rfl
  | cons a as ih =>
    simp [seqOptions, h a (List.mem_cons_self a as),
      ih fun k hk => h k (List.mem_cons_of_mem a hk)]

lemma groupRows_ne_nil (rows : List LongRow) (k : ℤ × ℤ × ℤ × ℤ)
    (hk : k ∈ (rows.map groupKey).dedup) : groupRows rows k ≠ [] := by
  obtain ⟨r, hr, hgk⟩ := List.mem_map.mp (List.mem_dedup.mp hk)
  exact List.ne_nil_of_mem
    (List.mem_filter.mpr ⟨hr, decide_eq_true hgk⟩)

lemma build_eq (ops : RealOps) (rows : List LongRow) :
    build_impedance_feature_table ops rows =
      some (((rows.map groupKey).dedup).map (recordFor ops rows)) := by
  apply seqOptions_map_some
  intro k hk
  rw [compute_eq_some ops (groupRows rows k) (groupRows_ne_nil rows k hk),
    Option.map_some']
  rfl

lemma getD_map_absDist (l : List ℚ) (t : ℚ) (j : ℕ) (hj : j < l.length) :
    (l.map fun f => |f - t|).getD j 0 = |l.getD j 0 - t| := by
  rw [List.getD_eq_getElem _ _ (by simpa using hj), List.getD_eq_getElem _ _ hj,
    List.getElem_map]

/-! ## The claims -/

/-- C1, counterexample: the claim says a source in which zero rows survive
numeric coercion makes the Spectrum Loader fail with a ParseError, and that a
successfully returned spectrum always has at least one row.  On the code a
nonempty raw table whose single row is all text is cleaned to an empty
spectrum and returned successfully — `load_single_eis` has no emptiness
check and no error path after reading. -/
theorem c1_counterexample :
    load_single_eis [[Cell.str "Freq", Cell.str "ZReal", Cell.str "ZImag"]] = [] ∧
    ([[Cell.str "Freq", Cell.str "ZReal", Cell.str "ZImag"]] : List (List Cell)) ≠ [] :=
  ⟨rfl, by simp⟩

/-- C1, amended: the Spectrum Loader never fails on a readable table; it
returns an empty spectrum exactly when no source row has all of its first
three cells numerically coercible, so a successful return does not guarantee
a non-empty spectrum. -/
theorem c1_empty_iff_no_valid_rows (raw : List (List Cell)) :
    load_single_eis raw = [] ↔ ∀ row ∈ raw, rowOk row = false := by
  rw [load_eq_filter_map, List.map_eq_nil_iff, List.filter_eq_nil_iff]
  simp

/-- C1, witness: the amended equivalence applied to a concrete one-row table
with a non-coercible cell. -/
theorem c1_empty_iff_no_valid_rows_witness :
    load_single_eis [[Cell.blank, Cell.num 1, Cell.num 2]] = [] :=
  (c1_empty_iff_no_valid_rows [[Cell.blank, Cell.num 1, Cell.num 2]]).mpr (by decide)

/-- C4: the Spectrum Loader retains a row exactly when all three of its first
three cells coerce to numeric values — the output is the fully-coercible rows
in order, never substituted or imputed — and a 3-row source whose middle row
is a re-inserted text header yields a 2-row spectrum, not an error. -/
theorem c4_row_retention :
    (∀ raw : List (List Cell),
      load_single_eis raw = (raw.filter rowOk).map rowPoint) ∧
    load_single_eis
      [[Cell.num 1, Cell.num 2, Cell.num 3],
       [Cell.str "Freq", Cell.str "ZReal", Cell.str "ZImag"],
       [Cell.num 4, Cell.num 5, Cell.num 6]] =
      [⟨.fin 1, .fin 2, .fin 3⟩, ⟨.fin 4, .fin 5, .fin 6⟩] :=
  ⟨load_eq_filter_map, rfl⟩

/-- C5: for every non-empty group the Feature Extractor succeeds and returns
exactly the 23 feature keys — the 9 summary keys `R_hf_ohm … phase_std`
followed by the 14 frequency-indexed keys — in dict insertion order. -/
theorem c5_feature_keys (ops : RealOps) (g : List LongRow) (h : g ≠ []) :
    ∃ fs, compute_impedance_features ops g = some fs ∧
      fs.map Prod.fst = featureKeys ∧ fs.length = 23 :=
  ⟨featuresOf ops (sortByFreq g), compute_eq_some ops g h,
    featuresOf_map_fst ops (sortByFreq g), featuresOf_length ops (sortByFreq g)⟩

/-- C5, witness: the extractor applied to the concrete non-empty two-row
group. -/
theorem c5_feature_keys_witness :
    ∃ fs, compute_impedance_features opsZero exampleTwoCapRows = some fs ∧
      fs.map Prod.fst = featureKeys ∧ fs.length = 23 :=
  c5_feature_keys opsZero exampleTwoCapRows (by simp [exampleTwoCapRows])

/-- C9, counterexample: the claim says no retained row carries a non-finite
value.  But `pd.to_numeric` coerces the text `"inf"` (and IEEE-infinite
cells) to `+inf`, which is not NaN, so `dropna` keeps the row: a source row
whose first cell is such text is retained with a non-finite `frequency_hz`. -/
theorem c9_counterexample :
    load_single_eis [[Cell.infStr true, Cell.num 1, Cell.num 2]] =
      [⟨ExtQ.posInf, ExtQ.fin 1, ExtQ.fin 2⟩] ∧
    (⟨ExtQ.posInf, ExtQ.fin 1, ExtQ.fin 2⟩ : SpectrumPoint).frequency_hz.isFin =
      false :=
  ⟨rfl, rfl⟩

/-- C9, amended: every point retained by the Spectrum Loader takes each of
its three fields from a successful numeric coercion of the corresponding
source cell of some source row — no retained value is defaulted, zeroed, or
kept as a failed coercion — but a successful coercion can yield `±inf`
(infinity-denoting text or an IEEE-infinite cell), which `dropna` retains, so
retained values are non-NaN yet not guaranteed finite. -/
theorem c9_retained_values (raw : List (List Cell)) (p : SpectrumPoint)
    (hp : p ∈ load_single_eis raw) :
    ∃ row ∈ raw,
      toNumeric (cellAt row 0) = some p.frequency_hz ∧
      toNumeric (cellAt row 1) = some p.z_real_ohm ∧
      toNumeric (cellAt row 2) = some p.z_imag_ohm := by
  simp only [load_single_eis] at hp
  obtain ⟨row, hrow, hf⟩ := List.mem_filterMap.mp hp
  refine ⟨row, hrow, ?_⟩
  rcases h0 : toNumeric (cellAt row 0) with _ | f <;>
    rcases h1 : toNumeric (cellAt row 1) with _ | zr <;>
    rcases h2 : toNumeric (cellAt row 2) with _ | zi <;>
    rw [h0, h1, h2] at hf <;> simp at hf
  obtain ⟨e0, e1, e2⟩ := SpectrumPoint.mk.injEq .. ▸ hf
  exact ⟨by rw [← e0], by rw [← e1], by rw [← e2]⟩

/-- C9, witness: the amended theorem applied to a concrete one-row table and
its retained point. -/
theorem c9_retained_values_witness :
    ∃ row ∈ [[Cell.num 1, Cell.numStr 2, Cell.num 3]],
      toNumeric (cellAt row 0) =
        some (⟨.fin 1, .fin 2, .fin 3⟩ : SpectrumPoint).frequency_hz ∧
      toNumeric (cellAt row 1) =
        some (⟨.fin 1, .fin 2, .fin 3⟩ : SpectrumPoint).z_real_ohm ∧
      toNumeric (cellAt row 2) =
        some (⟨.fin 1, .fin 2, .fin 3⟩ : SpectrumPoint).z_imag_ohm :=
  c9_retained_values [[Cell.num 1, Cell.numStr 2, Cell.num 3]] ⟨.fin 1, .fin 2, .fin 3⟩
    (List.Mem.head _)

/-- C10: on an empty long-format dataset the Feature Table Builder returns an
empty feature table without any error. -/
theorem c10_empty_table (ops : RealOps) :
    build_impedance_feature_table ops [] = some [] := rfl

/-- C2: the nearest-frequency sampling step of the Feature Extractor selects
an in-range index whose frequency minimises the absolute difference to the
target, with ties broken by first occurrence in the ascending-sorted order
(every strictly earlier index has strictly larger distance); the extractor's
`Zmag_f0p01` entry is the magnitude at exactly that index; and on the
spectrum with frequencies `[0.005, 0.02, 50000]` the target `0.01` selects
index 0, the point at `0.005`. -/
theorem c2_nearest_frequency :
    (∀ (freq : List ℚ) (t : ℚ), freq ≠ [] →
      nearestIdx freq t < freq.length ∧
      (∀ j < freq.length,
        |freq.getD (nearestIdx freq t) 0 - t| ≤ |freq.getD j 0 - t|) ∧
      (∀ j < nearestIdx freq t,
        |freq.getD (nearestIdx freq t) 0 - t| < |freq.getD j 0 - t|)) ∧
    (∀ (ops : RealOps) (g : List LongRow),
      ("Zmag_f0p01", (magList ops g).getD (nearestIdx (freqList g) (1/100)) 0) ∈
        featuresOf ops g) ∧
    nearestIdx [(5 : ℚ)/1000, 2/100, 50000] (1/100) = 0 := by
  refine ⟨?_, ?_, ?_⟩
  · intro freq t hne
    have hlt : nearestIdx freq t < freq.length := by
      have := idxOfMin_lt_length (freq.map fun f => |f - t|) (by simpa using hne)
      simpa [nearestIdx] using this
    refine ⟨hlt, ?_, ?_⟩
    · intro j hj
      have h := idxOfMin_getD_le (freq.map fun f => |f - t|) j (by simpa using hj)
      rw [getD_map_absDist freq t j hj] at h
      rw [show idxOfMin (freq.map fun f => |f - t|) = nearestIdx freq t from rfl] at h
      rwa [getD_map_absDist freq t (nearestIdx freq t) hlt] at h
    · intro j hj
      have h := idxOfMin_getD_lt (freq.map fun f => |f - t|) j hj
      have hjlen : j < freq.length := lt_trans hj hlt
      rw [getD_map_absDist freq t j hjlen] at h
      rw [show idxOfMin (freq.map fun f => |f - t|) = nearestIdx freq t from rfl] at h
      rwa [getD_map_absDist freq t (nearestIdx freq t) hlt] at h
  · intro ops g
    exact List.mem_append_right _ (List.Mem.head _)
  · have h1 : |(5 : ℚ)/1000 - 1/100| = 1/200 := by
      rw [abs_of_nonpos (by norm_num)]; norm_num
    have h2 : |(2 : ℚ)/100 - 1/100| = 1/100 := by
      rw [abs_of_nonneg (by norm_num)]; norm_num
    have h3 : |(50000 : ℚ) - 1/100| = 4999999/100 := by
      rw [abs_of_nonneg (by norm_num)]; norm_num
    simp only [nearestIdx, List.map_cons, List.map_nil, h1, h2, h3]
    norm_num [idxOfMin, List.getD]

/-- C2, witness: the selection properties applied to the concrete spectrum of
the claim, together with the concrete selected index. -/
theorem c2_nearest_frequency_witness :
    nearestIdx [(5 : ℚ)/1000, 2/100, 50000] (1/100) < 3 ∧
    nearestIdx [(5 : ℚ)/1000, 2/100, 50000] (1/100) = 0 := by
  constructor
  · have h := (c2_nearest_frequency.1 [(5 : ℚ)/1000, 2/100, 50000] (1/100) (by simp)).1
    simpa using h
  · exact c2_nearest_frequency.2.2

/-- C3: the Feature Table Builder always succeeds, emits exactly one record
per distinct `(cell_id, soh_pct, temp_c, soc_pct)` key — `capacity_code` is
not part of the key — and the set of output keys equals the set of distinct
keys of the input rows; in particular the two rows of `exampleTwoCapRows`,
which differ only in `capacity_code` and their spectra, are merged into a
single record. -/
theorem c3_grouping_partition :
    (∀ (ops : RealOps) (rows : List LongRow),
      ∃ t, build_impedance_feature_table ops rows = some t ∧
        (t.map Prod.fst).Nodup ∧
        ∀ k, k ∈ t.map Prod.fst ↔ ∃ r ∈ rows, groupKey r = k) ∧
    (∀ ops : RealOps,
      (build_impedance_feature_table ops exampleTwoCapRows).map List.length = some 1) := by
  constructor
  · intro ops rows
    have hmap : (((rows.map groupKey).dedup).map (recordFor ops rows)).map Prod.fst
        = (rows.map groupKey).dedup := by
      rw [List.map_map, show Prod.fst ∘ recordFor ops rows = id from funext fun k => rfl,
        List.map_id]
    refine ⟨_, build_eq ops rows, ?_, ?_⟩
    · rw [hmap]; exact List.nodup_dedup _
    · intro k
      rw [hmap, List.mem_dedup, List.mem_map]
  · intro ops
    rw [build_eq]
    simp only [Option.map_some', List.length_map, Option.some.injEq]
    decide

/-- C3, witness: the grouping theorem applied to the two rows that differ
only in `capacity_code`. -/
theorem c3_grouping_partition_witness :
    ∃ t, build_impedance_feature_table opsZero exampleTwoCapRows = some t ∧
      (t.map Prod.fst).Nodup ∧
      ∀ k, k ∈ t.map Prod.fst ↔ ∃ r ∈ exampleTwoCapRows, groupKey r = k :=
  c3_grouping_partition.1 opsZero exampleTwoCapRows

/-- C8: every record of the output feature table carries exactly 27 columns —
the four `GROUP_COLS` key fields, then the nine summary features, then
`Zmag_f<tag>` and `phase_f<tag>` for each of the seven target frequencies,
where each tag is the target's Python string form with the decimal point
replaced by the letter p (so target 0.01 yields `Zmag_f0p01` and
`phase_f0p01`, and the integral targets render as `1p0`, …, `10000p0`). -/
theorem c8_output_columns (ops : RealOps) (rows : List LongRow)
    (t : List FeatureRecord) (ht : build_impedance_feature_table ops rows = some t)
    (rec : FeatureRecord) (hrec : rec ∈ t) :
    GROUP_COLS ++ rec.2.map Prod.fst =
      ["cell_id", "soh_pct", "temp_c", "soc_pct",
       "R_hf_ohm", "R_lf_ohm", "delta_R_ohm", "Zmag_mean", "Zmag_std",
       "Zmag_min", "Zmag_max", "phase_mean", "phase_std",
       "Zmag_f0p01", "phase_f0p01", "Zmag_f0p1", "phase_f0p1",
       "Zmag_f1p0", "phase_f1p0", "Zmag_f10p0", "phase_f10p0",
       "Zmag_f100p0", "phase_f100p0", "Zmag_f1000p0", "phase_f1000p0",
       "Zmag_f10000p0", "phase_f10000p0"] ∧
    (GROUP_COLS ++ rec.2.map Prod.fst).length = 27 := by
  rw [build_eq] at ht
  have ht' : ((rows.map groupKey).dedup).map (recordFor ops rows) = t :=
    Option.some.inj ht
  subst ht'
  obtain ⟨k, hk, hkrec⟩ := List.mem_map.mp hrec
  have h2 : rec.2 = featuresOf ops (sortByFreq (groupRows rows k)) := by
    rw [← hkrec]; rfl
  rw [h2, featuresOf_map_fst]
  exact ⟨rfl, rfl⟩

/-- C8, witness: the column shape of the single record that the builder
produces from the concrete two-row dataset. -/
theorem c8_output_columns_witness :
    GROUP_COLS ++
        (recordFor opsZero exampleTwoCapRows (1, 100, 25, 50)).2.map Prod.fst =
      ["cell_id", "soh_pct", "temp_c", "soc_pct",
       "R_hf_ohm", "R_lf_ohm", "delta_R_ohm", "Zmag_mean", "Zmag_std",
       "Zmag_min", "Zmag_max", "phase_mean", "phase_std",
       "Zmag_f0p01", "phase_f0p01", "Zmag_f0p1", "phase_f0p1",
       "Zmag_f1p0", "phase_f1p0", "Zmag_f10p0", "phase_f10p0",
       "Zmag_f100p0", "phase_f100p0", "Zmag_f1000p0", "phase_f1000p0",
       "Zmag_f10000p0", "phase_f10000p0"] ∧
    (GROUP_COLS ++
        (recordFor opsZero exampleTwoCapRows (1, 100, 25, 50)).2.map Prod.fst).length =
      27 :=
  c8_output_columns opsZero exampleTwoCapRows
    (((exampleTwoCapRows.map groupKey).dedup).map (recordFor opsZero exampleTwoCapRows))
    (build_eq opsZero exampleTwoCapRows)
    (recordFor opsZero exampleTwoCapRows (1, 100, 25, 50))
    (by
      rw [show (exampleTwoCapRows.map groupKey).dedup =
        [((1 : ℤ), (100 : ℤ), (25 : ℤ), (50 : ℤ))] from by decide]
      exact List.Mem.head _)

/-- C6, counterexample: the claim says every identifier violating the literal
format `Cell<int>_<int>SOH_<int>degC_<int>SOC_<int>` fails with a
FormatError.  The identifier `1_2SOH_3degC_4SOC_5.xls` violates the literal
format (no `Cell` tag), yet the decoder succeeds on it, because
`str.replace(tag, "")` deletes occurrences rather than checking an anchored
prefix, and a token without the tag passes straight to `int()`. -/
theorem c6_counterexample :
    parse_eis_filename "1_2SOH_3degC_4SOC_5.xls".toList = some ⟨1, 2, 3, 4, 5⟩ ∧
    ¬ matchesEisFormat "1_2SOH_3degC_4SOC_5.xls".toList := by
  refine ⟨by decide, ?_⟩
  rintro ⟨d1, d2, d3, d4, d5, ext, _, _, _, _, _, _, _, hs⟩
  have h1 : List.head? ("1_2SOH_3degC_4SOC_5.xls".toList) = some '1' := rfl
  rw [hs] at h1
  simp only [List.cons_append, List.head?_cons] at h1
  exact absurd (Option.some.inj h1) (by decide)

/-- C6, amended: decoding fails — with no partial result, the whole call
raising — exactly when the stem does not split into five underscore-separated
tokens or when some token, after deletion of every occurrence of its literal
tag, fails integer parsing; identifiers that violate the literal format but
still leave parseable tokens after tag deletion (such as a missing `Cell`
prefix) are decoded without error. -/
theorem c6_failure_characterisation (name : List Char) :
    parse_eis_filename name = none ↔
      ¬ ∃ (c s t u v : List Char) (a b d e f : ℤ),
        tokensOf name = [c, s, t, u, v] ∧
        parsePyInt (stripTagCell c) = some a ∧
        parsePyInt (stripTagSOH s) = some b ∧
        parsePyInt (stripTagDegC t) = some d ∧
        parsePyInt (stripTagSOC u) = some e ∧
        parsePyInt v = some f := by
  constructor
  · intro hnone
    rintro ⟨c, s, t, u, v, a, b, d, e, f, htok, hA, hB, hC, hD, hE⟩
    unfold parse_eis_filename at hnone
    rw [htok] at hnone
    simp only [hA, hB, hC, hD, hE] at hnone
    exact Option.noConfusion hnone
  · intro hnex
    rcases htok : tokensOf name with _ | ⟨t1, _ | ⟨t2, _ | ⟨t3, _ | ⟨t4, _ | ⟨t5, _ | ⟨t6, ts⟩⟩⟩⟩⟩⟩ <;>
        (unfold parse_eis_filename; rw [htok])
    rcases hA : parsePyInt (stripTagCell t1) with _ | a
    · simp only [hA]
    rcases hB : parsePyInt (stripTagSOH t2) with _ | b
    · simp only [hA, hB]
    rcases hC : parsePyInt (stripTagDegC t3) with _ | d
    · simp only [hA, hB, hC]
    rcases hD : parsePyInt (stripTagSOC t4) with _ | e
    · simp only [hA, hB, hC, hD]
    rcases hE : parsePyInt t5 with _ | f
    · simp only [hA, hB, hC, hD, hE]
    exact absurd ⟨t1, t2, t3, t4, t5, a, b, d, e, f, htok, hA, hB, hC, hD, hE⟩ hnex

/-- C6, witness: the characterisation applied to the concrete malformed
identifier `a_b.xls` (two tokens instead of five). -/
theorem c6_failure_characterisation_witness :
    ¬ ∃ (c s t u v : List Char) (a b d e f : ℤ),
      tokensOf "a_b.xls".toList = [c, s, t, u, v] ∧
      parsePyInt (stripTagCell c) = some a ∧
      parsePyInt (stripTagSOH s) = some b ∧
      parsePyInt (stripTagDegC t) = some d ∧
      parsePyInt (stripTagSOC u) = some e ∧
      parsePyInt v = some f :=
  (c6_failure_characterisation "a_b.xls".toList).mp (by decide)

lemma stripTagCell_encode (n : ℕ) :
    stripTagCell (['C', 'e', 'l', 'l'] ++ natToChars n) = natToChars n := by
  have h := removeAll_tag 'C' ['e', 'l', 'l'] [] (natToChars n) (by simp)
  simp only [List.nil_append] at h
  calc stripTagCell (['C', 'e', 'l', 'l'] ++ natToChars n)
      = removeAll 'C' ['e', 'l', 'l'] ('C' :: (['e', 'l', 'l'] ++ natToChars n)) := rfl
    _ = removeAll 'C' ['e', 'l', 'l'] (natToChars n) := h
    _ = natToChars n :=
        removeAll_of_not_mem 'C' ['e', 'l', 'l'] _ (not_mem_natToChars 'C' (by decide) n)

lemma stripTagSOH_encode (n : ℕ) :
    stripTagSOH (natToChars n ++ ['S', 'O', 'H']) = natToChars n := by
  have h := removeAll_tag 'S' ['O', 'H'] (natToChars n) []
    (not_mem_natToChars 'S' (by decide) n)
  rw [show removeAll 'S' ['O', 'H'] ([] : List Char) = [] from rfl] at h
  simp only [List.append_nil] at h
  exact h

lemma stripTagDegC_encode (n : ℕ) :
    stripTagDegC (natToChars n ++ ['d', 'e', 'g', 'C']) = natToChars n := by
  have h := removeAll_tag 'd' ['e', 'g', 'C'] (natToChars n) []
    (not_mem_natToChars 'd' (by decide) n)
  rw [show removeAll 'd' ['e', 'g', 'C'] ([] : List Char) = [] from rfl] at h
  simp only [List.append_nil] at h
  exact h

lemma stripTagSOC_encode (n : ℕ) :
    stripTagSOC (natToChars n ++ ['S', 'O', 'C']) = natToChars n := by
  have h := removeAll_tag 'S' ['O', 'C'] (natToChars n) []
    (not_mem_natToChars 'S' (by decide) n)
  rw [show removeAll 'S' ['O', 'C'] ([] : List Char) = [] from rfl] at h
  simp only [List.append_nil] at h
  exact h

lemma tokensOf_encodeFields (n1 n2 n3 n4 n5 : ℕ) (ext : List Char)
    (hext : ext ≠ []) (hdot : '.' ∉ ext) :
    tokensOf (encodeFields n1 n2 n3 n4 n5 ext) =
      [['C', 'e', 'l', 'l'] ++ natToChars n1,
       natToChars n2 ++ ['S', 'O', 'H'],
       natToChars n3 ++ ['d', 'e', 'g', 'C'],
       natToChars n4 ++ ['S', 'O', 'C'],
       natToChars n5] := by
  have h1 : '_' ∉ ['C', 'e', 'l', 'l'] ++ natToChars n1 := by
    intro h
    rcases List.mem_append.mp h with h | h
    · exact absurd h (by decide)
    · exact not_mem_natToChars '_' (by decide) n1 h
  have h2 : '_' ∉ natToChars n2 ++ ['S', 'O', 'H'] := by
    intro h
    rcases List.mem_append.mp h with h | h
    · exact not_mem_natToChars '_' (by decide) n2 h
    · exact absurd h (by decide)
  have h3 : '_' ∉ natToChars n3 ++ ['d', 'e', 'g', 'C'] := by
    intro h
    rcases List.mem_append.mp h with h | h
    · exact not_mem_natToChars '_' (by decide) n3 h
    · exact absurd h (by decide)
  have h4 : '_' ∉ natToChars n4 ++ ['S', 'O', 'C'] := by
    intro h
    rcases List.mem_append.mp h with h | h
    · exact not_mem_natToChars '_' (by decide) n4 h
    · exact absurd h (by decide)
  have hstem : stemOf (encodeFields n1 n2 n3 n4 n5 ext) =
      (['C', 'e', 'l', 'l'] ++ natToChars n1) ++
        '_' :: ((natToChars n2 ++ ['S', 'O', 'H']) ++
          '_' :: ((natToChars n3 ++ ['d', 'e', 'g', 'C']) ++
            '_' :: ((natToChars n4 ++ ['S', 'O', 'C']) ++ '_' :: natToChars n5))) :=
    stemOf_append _ ext (by simp) hext hdot
  rw [tokensOf, hstem]
  exact splitUnderscore_five _ _ _ _ _ h1 h2 h3 h4
    (not_mem_natToChars '_' (by decide) n5)

/-- C7, counterexample: the claim includes zero-padded identifiers such as
`Cell02_95SOH_15degC_05SOC_9505.xls` in the round-trip.  Decoding that name
yields the integers (2, 95, 15, 5, 9505), and re-encoding them with the
template renders the canonical decimal forms `Cell2…5SOC…`, which is not the
original string — the zero padding is not recoverable from the decoded
integers. -/
theorem c7_counterexample :
    parse_eis_filename "Cell02_95SOH_15degC_05SOC_9505.xls".toList =
      some ⟨2, 95, 15, 5, 9505⟩ ∧
    encodeFields 2 95 15 5 9505 "xls".toList ≠
      "Cell02_95SOH_15degC_05SOC_9505.xls".toList :=
  ⟨by decide, by decide⟩

/-- C7, amended: for identifiers in the literal template with every numeric
token in canonical decimal form (no leading zeros, no sign) and a nonempty
dot-free extension, decoding recovers exactly the five encoded integers —
hence re-encoding them with the same template and extension reproduces the
original string exactly.  Zero-padded tokens decode to the same integers and
are therefore not reproduced. -/
theorem c7_roundtrip_canonical (n1 n2 n3 n4 n5 : ℕ) (ext : List Char)
    (hext : ext ≠ []) (hdot : '.' ∉ ext) :
    parse_eis_filename (encodeFields n1 n2 n3 n4 n5 ext) =
      some ⟨(n1 : ℤ), (n2 : ℤ), (n3 : ℤ), (n4 : ℤ), (n5 : ℤ)⟩ := by
  unfold parse_eis_filename
  rw [tokensOf_encodeFields n1 n2 n3 n4 n5 ext hext hdot]
  simp only [stripTagCell_encode, stripTagSOH_encode, stripTagDegC_encode,
    stripTagSOC_encode, parsePyInt_natToChars]

/-- C7, witness: the canonical round-trip applied to the concrete fields
(2, 95, 15, 5, 9505) with extension `xls`. -/
theorem c7_roundtrip_canonical_witness :
    parse_eis_filename (encodeFields 2 95 15 5 9505 ['x', 'l', 's']) =
      some ⟨2, 95, 15, 5, 9505⟩ :=
  c7_roundtrip_canonical 2 95 15 5 9505 ['x', 'l', 's'] (by decide) (by decide)
